import Mathlib

/-!
Shallow embedding of the EasySpot manual-memory toolkit (src/lib.hpp):
an untyped owning allocation handle (`block`) with an embedded size header,
typed non-owning (`ref`) and owning (`seq`) views, and the debug-mode
live-allocation registry that detects use-after-free and double-drop.

Memory is byte-addressed (`Nat → Nat`); allocation is modelled by a bump
pointer that never reuses addresses, so each `new uint8_t[...]` yields a
fresh, disjoint buffer.  A fatal `panic()` through Diagnostics is modelled
as `Except.error` — once an operation errors the process has aborted.
The build-mode switch `EASYSPOT_DEBUG` is the `dbg` field of the state:
code under `#ifdef EASYSPOT_DEBUG` runs only when `dbg = true`.
-/

namespace EasySpot

set_option maxHeartbeats 1000000

/-- sizeof(size_t): the native machine-word width (8 bytes on the 64-bit target). -/
def headerWidth : Nat := 8

/-- Byte-addressed memory: each address holds one byte. -/
def Mem : Type := Nat → Nat

/-- Store a list of bytes starting at address `a`. -/
def writeBytes (m : Mem) (a : Nat) : List Nat → Mem
  | [] => m
  | b :: bs => writeBytes (fun x => if x = a then b else m x) (a + 1) bs

/-- Load `n` bytes starting at address `a`. -/
def readBytes (m : Mem) (a : Nat) : Nat → List Nat
  | 0 => []
  | n + 1 => m a :: readBytes m (a + 1) n

/-- Little-endian encoding of a value into `n` bytes. -/
def leBytes : Nat → Nat → List Nat
  | 0, _ => []
  | n + 1, v => v % 256 :: leBytes n (v / 256)

/-- Little-endian value of a byte list. -/
def leVal : List Nat → Nat
  | [] => 0
  | b :: bs => b + 256 * leVal bs

/-- The fatal error kinds routed through Diagnostics' panic. -/
inductive Err where
  | UseAfterFreeError
  | DoubleDropError
  | OutOfBoundsError
deriving DecidableEq

/-- One Live Registry record (debug builds): the payload address of a live
block and the generation counter (written as 0, never updated). -/
structure RegistryRecord where
  block : Nat
  generation : Nat
deriving DecidableEq

/-- Whole-program state: the build flag, memory, the debug Live Registry,
the ghost list of live allocations as (base, requested size), and the
allocator's bump pointer. -/
structure St where
  dbg : Bool
  mem : Mem
  registry : List RegistryRecord
  allocs : List (Nat × Nat)
  next : Nat

/-- The all-zero initial memory. -/
def mem0 : Mem := fun _ => 0

/-- Initial state for a given build mode: empty registry, nothing allocated. -/
def st0 (dbg : Bool) : St :=
  { dbg := dbg, mem := mem0, registry := [], allocs := [], next := 0 }

/-- block::block(size): reserve `headerWidth + size` bytes at a fresh base,
store `size` in the header word, and advance the pointer past the header;
debug builds also push a registry record for the payload address.
Returns the payload address `bptr` and the new state. -/
def block.init (size : Nat) (st : St) : Nat × St :=
  let base := st.next
  let bptr := base + headerWidth
  ⟨bptr,
    { st with
      mem := writeBytes st.mem base (leBytes headerWidth size)
      registry := if st.dbg then st.registry ++ [⟨bptr, 0⟩] else st.registry
      allocs := st.allocs ++ [(base, size)]
      next := base + headerWidth + size }⟩

/-- block::size(): read the size_t header stored just below the payload. -/
def block.size (bptr : Nat) (st : St) : Nat :=
  leVal (readBytes st.mem (bptr - headerWidth) headerWidth)

/-- block::as_ref<T>(): reinterpret the payload address; no validation. -/
def block.as_ref (bptr : Nat) : Nat := bptr

/-- Index of the first element satisfying `p` (the registry scan order). -/
def findAt {α : Type} (p : α → Bool) : List α → Option Nat
  | [] => none
  | x :: xs => if p x then some 0 else (findAt p xs).map (· + 1)

/-- block::check_drop() under EASYSPOT_DEBUG: scan the registry for the
payload address; if found, swap that record with the last one and pop it;
otherwise panic with DoubleDropError. -/
def block.check_drop (bptr : Nat) (reg : List RegistryRecord) :
    Except Err (List RegistryRecord) :=
  match findAt (fun r => r.block == bptr) reg with
  | some i => .ok ((reg.set i (reg.getLastD ⟨0, 0⟩)).dropLast)
  | none => .error .DoubleDropError

/-- Ghost bookkeeping for `delete[]`: remove the live allocation whose
payload address is `bptr` (same find-first, swap-with-last discipline). -/
def allocsRemove (bptr : Nat) (al : List (Nat × Nat)) : List (Nat × Nat) :=
  match findAt (fun a => a.1 + headerWidth == bptr) al with
  | some i => (al.set i (al.getLastD (0, 0))).dropLast
  | none => al

/-- block::drop(): debug — check_drop (DoubleDropError when the payload is
not registered) and then `delete[]` the buffer at `bptr - headerWidth`;
release — check_drop is empty, the buffer is released unconditionally. -/
def block.drop (bptr : Nat) (st : St) : Except Err St :=
  if st.dbg then
    match block.check_drop bptr st.registry with
    | .error e => .error e
    | .ok reg => .ok { st with registry := reg, allocs := allocsRemove bptr st.allocs }
  else
    .ok { st with allocs := allocsRemove bptr st.allocs }

/-- ref::check_use() under EASYSPOT_DEBUG: linear scan of the Live
Registry; each record's block size is read back from the header word in
memory; the check passes iff the ref's address lies in the inclusive range
[record.block, record.block + size] of some record, else panic with
UseAfterFreeError.  The release body is empty. -/
def ref.check_use (addr : Nat) (st : St) : Except Err Unit :=
  if st.dbg then
    if st.registry.any (fun r =>
        decide (r.block ≤ addr) &&
        decide (addr ≤ r.block + leVal (readBytes st.mem (r.block - headerWidth) headerWidth)))
    then .ok ()
    else .error .UseAfterFreeError
  else .ok ()

/-- ref::operator* used as an rvalue: check_use, then load
sizeof(PointeeT) = `width` bytes through the raw pointer. -/
def ref.get (addr width : Nat) (st : St) : Except Err Nat :=
  match ref.check_use addr st with
  | .error e => .error e
  | .ok _ => .ok (leVal (readBytes st.mem addr width))

/-- ref::operator* used as an assignment target: check_use, then store the
value's `width` bytes through the raw pointer. -/
def ref.put (addr width v : Nat) (st : St) : Except Err St :=
  match ref.check_use addr st with
  | .error e => .error e
  | .ok _ => .ok { st with mem := writeBytes st.mem addr (leBytes width v) }

/-- seq<T>(capacity): delegate to block(capacity * sizeof(T)).  Returns the
owned block's payload address (the handle) and the new state. -/
def seq.init (elemWidth capacity : Nat) (st : St) : Nat × St :=
  block.init (capacity * elemWidth) st

/-- seq::capacity(): b.size() / sizeof(T). -/
def seq.capacity (bptr elemWidth : Nat) (st : St) : Nat :=
  block.size bptr st / elemWidth

/-- seq::nth(idx): ASSERTM(idx < capacity(), "Index out of bounds") — the
assertion expands to a panic only under EASYSPOT_DEBUG and to `;` in
release — then a ref at `b.bptr + idx * sizeof(T)`. -/
def seq.nth (bptr elemWidth idx : Nat) (st : St) : Except Err Nat :=
  if st.dbg ∧ ¬ idx < seq.capacity bptr elemWidth st then .error .OutOfBoundsError
  else .ok (bptr + idx * elemWidth)

/-- seq::operator[](idx) as an rvalue: `*nth(idx).bptr` — nth's bounds
discipline, then a direct load through the raw pointer, with no check_use. -/
def seq.index (bptr elemWidth idx : Nat) (st : St) : Except Err Nat :=
  match seq.nth bptr elemWidth idx st with
  | .error e => .error e
  | .ok a => .ok (leVal (readBytes st.mem a elemWidth))

/-- seq::operator[](idx) as an assignment target: `*nth(idx).bptr = v` —
direct store through the raw pointer, with no check_use. -/
def seq.indexSet (bptr elemWidth idx v : Nat) (st : St) : Except Err St :=
  match seq.nth bptr elemWidth idx st with
  | .error e => .error e
  | .ok a => .ok { st with mem := writeBytes st.mem a (leBytes elemWidth v) }

/-- seq::drop(): b.drop(). -/
def seq.drop (bptr : Nat) (st : St) : Except Err St := block.drop bptr st

/-- block::~block(): "not allowed to deallocate internal block" — the body
is empty, so the destructor is the identity on the program state. -/
def block.dtor (st : St) : St := st

/-- seq::~seq(): empty body, identity on the program state. -/
def seq.dtor (st : St) : St := st

/-- Disjointness of two allocation buffers (header included). -/
def Disj (a b : Nat × Nat) : Prop :=
  a.1 + headerWidth + a.2 ≤ b.1 ∨ b.1 + headerWidth + b.2 ≤ a.1

/-- Well-formedness of a reachable state: every live buffer sits below the
bump pointer, sizes fit in a size_t, buffers (header included) are pairwise
disjoint, each header word still holds the requested size, and in debug
mode the Live Registry mirrors the live allocations record-for-record. -/
structure WF (st : St) : Prop where
  bounded : ∀ al ∈ st.allocs, al.1 + headerWidth + al.2 ≤ st.next
  sizeFits : ∀ al ∈ st.allocs, al.2 < 2 ^ (8 * headerWidth)
  disj : st.allocs.Pairwise Disj
  headers : ∀ al ∈ st.allocs, leVal (readBytes st.mem al.1 headerWidth) = al.2
  regSync : st.dbg = true →
    st.registry = st.allocs.map (fun al => ⟨al.1 + headerWidth, 0⟩)

/-- The API operations a caller can perform (allocation, drop, and the
mutating accesses; reads do not change the state). -/
inductive Op where
  | alloc (size : Nat)
  | seqalloc (elemWidth capacity : Nat)
  | drop (bptr : Nat)
  | refput (addr width v : Nat)
  | seqput (bptr elemWidth idx v : Nat)

/-- One step of the state machine; `Except.error` is a Diagnostics panic. -/
def step (st : St) : Op → Except Err St
  | .alloc size => .ok (block.init size st).2
  | .seqalloc e c => .ok (seq.init e c st).2
  | .drop b => block.drop b st
  | .refput a w v => ref.put a w v st
  | .seqput b e i v => seq.indexSet b e i v st

/-- The documented caller obligations: allocation sizes fit in a size_t,
a write through a ref stays inside the payload of a live block (the
`sizeof(T) <= size()` obligation of as_ref / nth-derived refs), and seq
writes go through a live seq handle at an in-range index. -/
def stepOk (st : St) : Op → Prop
  | .alloc size => size < 2 ^ (8 * headerWidth)
  | .seqalloc e c => c * e < 2 ^ (8 * headerWidth)
  | .drop _ => True
  | .refput a w _ => ∃ al ∈ st.allocs,
      al.1 + headerWidth ≤ a ∧ a + w ≤ al.1 + headerWidth + al.2
  | .seqput b e i _ => 0 < e ∧ i < seq.capacity b e st ∧
      ∃ al ∈ st.allocs, al.1 + headerWidth = b

/-- A run of obligation-respecting operations that all succeed. -/
inductive RunOk : St → List Op → St → Prop where
  | nil (st : St) : RunOk st [] st
  | cons {st : St} {op : Op} {st₁ : St} {ops : List Op} {st' : St}
      (hok : stepOk st op) (hs : step st op = .ok st₁)
      (hrest : RunOk st₁ ops st') : RunOk st (op :: ops) st'

/-- A dangling address: below everything any future allocation can occupy,
and inside no live buffer's record range. -/
def Dead (addr : Nat) (st : St) : Prop :=
  addr < st.next + headerWidth ∧
  ∀ al ∈ st.allocs,
    ¬ (al.1 + headerWidth ≤ addr ∧ addr ≤ al.1 + headerWidth + al.2)

/-- The state right after allocating a 4-byte block in a fresh debug build
and dropping it: the header bytes remain in memory, the registry and the
live-allocation list are empty again. -/
def demoDropped : St :=
  { dbg := true
    mem := writeBytes mem0 0 (leBytes headerWidth 4)
    registry := []
    allocs := []
    next := headerWidth + 4 }

/-! ### Byte-memory lemmas -/

theorem writeBytes_apply_of_lt (bs : List Nat) (m : Mem) (a x : Nat) (h : x < a) :
    writeBytes m a bs x = m x := by
  induction bs generalizing m a with
  | nil => rfl
  | cons b bs ih =>
    simp only [writeBytes]
    rw [ih _ (a + 1) (Nat.lt_succ_of_lt h)]
    simp [Nat.ne_of_lt h]

theorem writeBytes_apply_of_ge (bs : List Nat) (m : Mem) (a x : Nat)
    (h : a + bs.length ≤ x) : writeBytes m a bs x = m x := by
  induction bs generalizing m a with
  | nil => rfl
  | cons b bs ih =>
    simp only [writeBytes]
    have hax : a < x := by simp only [List.length_cons] at h; omega
    rw [ih _ (a + 1) (by simp only [List.length_cons] at h; omega)]
    simp [Nat.ne_of_gt hax]

theorem readBytes_writeBytes_left (n : Nat) (bs : List Nat) (m : Mem) (a b : Nat)
    (h : b + n ≤ a) : readBytes (writeBytes m a bs) b n = readBytes m b n := by
  induction n generalizing b with
  | zero => rfl
  | succ n ih =>
    simp only [readBytes]
    rw [writeBytes_apply_of_lt _ _ _ _ (by omega), ih (b + 1) (by omega)]

theorem readBytes_writeBytes_right (n : Nat) (bs : List Nat) (m : Mem) (a b : Nat)
    (h : a + bs.length ≤ b) : readBytes (writeBytes m a bs) b n = readBytes m b n := by
  induction n generalizing b with
  | zero => rfl
  | succ n ih =>
    simp only [readBytes]
    rw [writeBytes_apply_of_ge _ _ _ _ (by omega), ih (b + 1) (by omega)]

/-- Reading back exactly the bytes just written. -/
theorem readBytes_writeBytes (bs : List Nat) (m : Mem) (a : Nat) :
    readBytes (writeBytes m a bs) a bs.length = bs := by
  induction bs generalizing m a with
  | nil => rfl
  | cons b bs ih =>
    simp only [writeBytes, List.length_cons, readBytes]
    congr 1
    · rw [writeBytes_apply_of_lt _ _ _ _ (Nat.lt_succ_self a)]
      simp
    · exact ih _ (a + 1)

theorem leBytes_length (n v : Nat) : (leBytes n v).length = n := by
  induction n generalizing v with
  | zero => rfl
  | succ n ih => simp [leBytes, ih]

theorem leVal_leBytes (n v : Nat) : leVal (leBytes n v) = v % 256 ^ n := by
  induction n generalizing v with
  | zero => simp [leBytes, leVal, Nat.mod_one]
  | succ n ih =>
    simp only [leBytes, leVal, ih]
    rw [pow_succ, mul_comm (256 ^ n) 256, Nat.mod_mul]

theorem leVal_leBytes_of_lt (n v : Nat) (h : v < 256 ^ n) :
    leVal (leBytes n v) = v := by
  rw [leVal_leBytes, Nat.mod_eq_of_lt h]

/-- Read-back of a just-written region whose length is stated separately. -/
theorem readBytes_writeBytes_of_length (bs : List Nat) (m : Mem) (a n : Nat)
    (h : bs.length = n) : readBytes (writeBytes m a bs) a n = bs :=
  h ▸ readBytes_writeBytes bs m a

theorem pow256_headerWidth : (256 : Nat) ^ headerWidth = 2 ^ (8 * headerWidth) := by
  rw [show (256 : Nat) = 2 ^ 8 from rfl, ← pow_mul]

/-- The header word read back right after `block.init` wrote it. -/
theorem block_size_init (size : Nat) (st : St) (h : size < 2 ^ (8 * headerWidth)) :
    block.size (block.init size st).1 (block.init size st).2 = size := by
  simp only [block.init, block.size, Nat.add_sub_cancel]
  rw [readBytes_writeBytes_of_length _ _ _ _ (leBytes_length _ _), leVal_leBytes_of_lt]
  rw [pow256_headerWidth]; exact h

/-! ### findAt and swap-with-last removal lemmas -/

theorem findAt_map {α β : Type} (p : β → Bool) (f : α → β) (l : List α) :
    findAt p (l.map f) = findAt (fun x => p (f x)) l := by
  induction l with
  | nil => rfl
  | cons x xs ih => by_cases h : p (f x) <;> simp [findAt, h, ih]

theorem findAt_lt_length {α : Type} {p : α → Bool} {l : List α} {i : Nat}
    (h : findAt p l = some i) : i < l.length := by
  induction l generalizing i with
  | nil => simp [findAt] at h
  | cons x xs ih =>
    rw [findAt] at h
    by_cases hp : p x
    · rw [if_pos hp] at h
      injection h with h
      subst h
      simp
    · rw [if_neg hp] at h
      cases hfind : findAt p xs with
      | none => rw [hfind] at h; simp at h
      | some j =>
        rw [hfind] at h
        simp only [Option.map_some', Option.some.injEq] at h
        subst h
        have := ih hfind
        simp only [List.length_cons]
        omega

theorem findAt_get {α : Type} {p : α → Bool} {l : List α} {i : Nat}
    (h : findAt p l = some i) : p (l.get ⟨i, findAt_lt_length h⟩) = true := by
  induction l generalizing i with
  | nil => simp [findAt] at h
  | cons x xs ih =>
    have h' := h
    rw [findAt] at h'
    by_cases hp : p x
    · rw [if_pos hp] at h'
      injection h' with h'
      subst h'
      simpa using hp
    · rw [if_neg hp] at h'
      cases hfind : findAt p xs with
      | none => rw [hfind] at h'; simp at h'
      | some j =>
        rw [hfind] at h'
        simp only [Option.map_some', Option.some.injEq] at h'
        subst h'
        simpa using ih hfind

theorem findAt_eq_none_iff {α : Type} {p : α → Bool} {l : List α} :
    findAt p l = none ↔ ∀ x ∈ l, p x = false := by
  induction l with
  | nil => simp [findAt]
  | cons x xs ih =>
    by_cases hp : p x <;> simp [findAt, hp, ih]

theorem findAt_append_singleton_of_none {α : Type} {p : α → Bool} {l : List α}
    (h : findAt p l = none) (y : α) (hy : p y = true) :
    findAt p (l ++ [y]) = some l.length := by
  induction l with
  | nil => simp [findAt, hy]
  | cons x xs ih =>
    by_cases hp : p x
    · simp [findAt, hp] at h
    · simp only [findAt, hp, if_false] at h
      have hxs : findAt p xs = none := by
        cases hfind : findAt p xs <;> simp [hfind] at h ⊢
      simp [findAt, hp, ih hxs]

/-- Swap-with-last removal at a valid index yields a permutation with the
removed element put back in front. -/
theorem perm_swapRemove {α : Type} (l : List α) (d : α) (i : Nat)
    (h : i < l.length) :
    List.Perm l (l.get ⟨i, h⟩ :: (l.set i (l.getLastD d)).dropLast) := by
  induction l generalizing i d with
  | nil => simp at h
  | cons x xs ih =>
    cases i with
    | zero =>
      cases xs with
      | nil => simp
      | cons y ys =>
        have hne : (y :: ys) ≠ ([] : List α) := by simp
        have hlast : (x :: y :: ys).getLastD d = (y :: ys).getLast hne := by
          rw [List.getLastD_eq_getLast?, List.getLast?_eq_getLast _ (by simp),
            Option.getD_some, List.getLast_cons hne]
        have hdecomp : (y :: ys) = (y :: ys).dropLast ++ [(y :: ys).getLast hne] :=
          (List.dropLast_append_getLast hne).symm
        rw [hlast]
        show List.Perm (x :: y :: ys)
          (x :: (((y :: ys).getLast hne :: y :: ys).dropLast))
        rw [List.dropLast_cons_of_ne_nil hne]
        refine List.Perm.cons x ?_
        have hmid : List.Perm ((y :: ys).dropLast ++ [(y :: ys).getLast hne])
            ((y :: ys).getLast hne :: ((y :: ys).dropLast ++ [])) :=
          List.perm_middle
        simp only [List.append_nil] at hmid
        conv_lhs => rw [hdecomp]
        exact hmid
    | succ j =>
      cases xs with
      | nil => simp at h
      | cons y ys =>
        have hj : j < (y :: ys).length := by
          simp only [List.length_cons] at h ⊢
          omega
        have hne : ((y :: ys).set j ((y :: ys).getLastD x)) ≠ ([] : List α) := by
          apply List.ne_nil_of_length_pos
          simp
        show List.Perm (x :: y :: ys)
          ((y :: ys).get ⟨j, hj⟩ ::
            (x :: (y :: ys).set j ((y :: ys).getLastD x)).dropLast)
        rw [List.dropLast_cons_of_ne_nil hne]
        exact ((ih x j hj).cons x).trans (List.Perm.swap _ _ _)

theorem getLastD_map_of_ne_nil {α β : Type} (f : α → β) (l : List α) (hne : l ≠ [])
    (d : α) (e : β) : (l.map f).getLastD e = f (l.getLastD d) := by
  rw [List.getLastD_eq_getLast?, List.getLastD_eq_getLast?, List.getLast?_map,
    List.getLast?_eq_getLast _ hne]
  rfl

/-! ### The well-formedness invariant -/

theorem disj_symm {a b : Nat × Nat} (h : Disj a b) : Disj b a := Or.symm h

theorem wf_st0 (dbg : Bool) : WF (st0 dbg) := by
  constructor <;> simp [st0]

/-- Allocation preserves well-formedness. -/
theorem wf_init {st : St} (h : WF st) (size : Nat)
    (hsz : size < 2 ^ (8 * headerWidth)) : WF (block.init size st).2 := by
  refine ⟨?_, ?_, ?_, ?_, ?_⟩ <;> dsimp only [block.init]
  · intro al hal
    rcases List.mem_append.mp hal with hmem | hmem
    · have := h.bounded al hmem
      omega
    · simp only [List.mem_singleton] at hmem
      subst hmem
      omega
  · intro al hal
    rcases List.mem_append.mp hal with hmem | hmem
    · exact h.sizeFits al hmem
    · simp only [List.mem_singleton] at hmem
      subst hmem
      exact hsz
  · rw [List.pairwise_append]
    refine ⟨h.disj, by simp, ?_⟩
    intro a ha b hb
    simp only [List.mem_singleton] at hb
    subst hb
    left
    exact h.bounded a ha
  · intro al hal
    rcases List.mem_append.mp hal with hmem | hmem
    · rw [readBytes_writeBytes_left _ _ _ _ _ (by have := h.bounded al hmem; omega)]
      exact h.headers al hmem
    · simp only [List.mem_singleton] at hmem
      subst hmem
      rw [readBytes_writeBytes_of_length _ _ _ _ (leBytes_length _ _),
        leVal_leBytes_of_lt]
      rw [pow256_headerWidth]
      exact hsz
  · intro hdbg
    rw [hdbg, if_pos rfl, h.regSync hdbg, List.map_append]
    rfl

/-- The registry scan and the ghost allocation-list scan find the same
index (debug mode). -/
theorem registry_findAt {st : St} (h : WF st) (hdbg : st.dbg = true) (bptr : Nat) :
    findAt (fun r => r.block == bptr) st.registry =
      findAt (fun al => al.1 + headerWidth == bptr) st.allocs := by
  rw [h.regSync hdbg, findAt_map]

/-- When the payload is registered, check_drop succeeds and the new
registry still mirrors the (swap-removed) ghost allocation list. -/
theorem check_drop_registry {st : St} (h : WF st) (hdbg : st.dbg = true)
    {bptr i : Nat}
    (hfind : findAt (fun al => al.1 + headerWidth == bptr) st.allocs = some i) :
    block.check_drop bptr st.registry =
      .ok ((allocsRemove bptr st.allocs).map
        (fun al => (⟨al.1 + headerWidth, 0⟩ : RegistryRecord))) := by
  have hlt : i < st.allocs.length := findAt_lt_length hfind
  have hne : st.allocs ≠ [] := by
    apply List.ne_nil_of_length_pos
    omega
  have hreg : findAt (fun r => r.block == bptr) st.registry = some i := by
    rw [registry_findAt h hdbg, hfind]
  unfold block.check_drop allocsRemove
  rw [hreg, hfind]
  dsimp only
  rw [h.regSync hdbg,
    getLastD_map_of_ne_nil (fun al => (⟨al.1 + headerWidth, 0⟩ : RegistryRecord))
      st.allocs hne (0, 0) ⟨0, 0⟩,
    ← List.map_set, ← List.map_dropLast]

/-- Debug-mode drop on a registered payload: success, with registry and
ghost allocations swap-removed in lockstep. -/
theorem block_drop_ok_debug {st : St} (h : WF st) (hdbg : st.dbg = true)
    {bptr i : Nat}
    (hfind : findAt (fun al => al.1 + headerWidth == bptr) st.allocs = some i) :
    block.drop bptr st = .ok { st with
      registry := (allocsRemove bptr st.allocs).map
        (fun al => ⟨al.1 + headerWidth, 0⟩),
      allocs := allocsRemove bptr st.allocs } := by
  unfold block.drop
  rw [hdbg, if_pos rfl, check_drop_registry h hdbg hfind]

/-- Debug-mode drop on an unregistered payload: DoubleDropError. -/
theorem block_drop_error {st : St} (h : WF st) (hdbg : st.dbg = true) {bptr : Nat}
    (hfind : findAt (fun al => al.1 + headerWidth == bptr) st.allocs = none) :
    block.drop bptr st = .error .DoubleDropError := by
  unfold block.drop
  rw [hdbg, if_pos rfl]
  unfold block.check_drop
  rw [registry_findAt h hdbg, hfind]

/-- Facts about the swap-removed allocation list. -/
theorem allocsRemove_perm {st : St} {bptr i : Nat}
    (hfind : findAt (fun al => al.1 + headerWidth == bptr) st.allocs = some i) :
    List.Perm st.allocs
      (st.allocs.get ⟨i, findAt_lt_length hfind⟩ :: allocsRemove bptr st.allocs) := by
  unfold allocsRemove
  rw [hfind]
  exact perm_swapRemove st.allocs (0, 0) i (findAt_lt_length hfind)

theorem allocsRemove_subset {st : St} {bptr i : Nat}
    (hfind : findAt (fun al => al.1 + headerWidth == bptr) st.allocs = some i) :
    ∀ al ∈ allocsRemove bptr st.allocs, al ∈ st.allocs := by
  intro al hal
  exact (allocsRemove_perm hfind).mem_iff.mpr (List.mem_cons_of_mem _ hal)

/-- drop preserves well-formedness in both modes. -/
theorem wf_drop {st st' : St} {bptr : Nat} (h : WF st)
    (hd : block.drop bptr st = .ok st') : WF st' := by
  have main : ∀ reg' : List RegistryRecord,
      (st.dbg = true →
        reg' = (allocsRemove bptr st.allocs).map (fun al => ⟨al.1 + headerWidth, 0⟩)) →
      WF { st with registry := reg', allocs := allocsRemove bptr st.allocs } := by
    intro reg' hreg
    cases hfind : findAt (fun al => al.1 + headerWidth == bptr) st.allocs with
    | none =>
      have hsame : allocsRemove bptr st.allocs = st.allocs := by
        unfold allocsRemove
        rw [hfind]
      rw [hsame]
      constructor
      · exact h.bounded
      · exact h.sizeFits
      · exact h.disj
      · exact h.headers
      · intro hdbg
        rw [hreg hdbg, hsame, ← h.regSync hdbg]
    | some i =>
      have hperm := allocsRemove_perm hfind
      have hsub := allocsRemove_subset hfind
      constructor
      · intro al hal
        exact h.bounded al (hsub al hal)
      · intro al hal
        exact h.sizeFits al (hsub al hal)
      · have hpw : (st.allocs.get ⟨i, findAt_lt_length hfind⟩ ::
            allocsRemove bptr st.allocs).Pairwise Disj :=
          (hperm.pairwise_iff (fun hab => disj_symm hab)).mp h.disj
        exact (List.pairwise_cons.mp hpw).2
      · intro al hal
        exact h.headers al (hsub al hal)
      · intro hdbg
        exact hreg hdbg
  by_cases hdbg : st.dbg = true
  · cases hfind : findAt (fun al => al.1 + headerWidth == bptr) st.allocs with
    | none =>
      rw [block_drop_error h hdbg hfind] at hd
      exact absurd hd (by simp)
    | some i =>
      rw [block_drop_ok_debug h hdbg hfind] at hd
      simp only [Except.ok.injEq] at hd
      subst hd
      exact main _ (fun _ => rfl)
  · have hdbg' : st.dbg = false := by
      cases hb : st.dbg
      · rfl
      · exact absurd hb hdbg
    unfold block.drop at hd
    rw [if_neg (by rw [hdbg']; simp)] at hd
    simp only [Except.ok.injEq] at hd
    subst hd
    exact main st.registry (fun hcontr => absurd hcontr (by rw [hdbg']; simp))

theorem disj_symmetric : Symmetric Disj := fun _ _ h => Or.symm h

/-! ### check_use characterization and write preservation -/

/-- check_use either passes or panics with UseAfterFreeError. -/
theorem check_use_cases (addr : Nat) (st : St) :
    ref.check_use addr st = .ok () ∨
    ref.check_use addr st = .error .UseAfterFreeError := by
  unfold ref.check_use
  by_cases h1 : st.dbg = true
  · rw [if_pos h1]
    by_cases h2 : st.registry.any (fun r =>
        decide (r.block ≤ addr) &&
        decide (addr ≤ r.block +
          leVal (readBytes st.mem (r.block - headerWidth) headerWidth))) = true
    · left; rw [if_pos h2]
    · right; rw [if_neg h2]
  · left; rw [if_neg h1]

/-- Debug mode: check_use fails with UseAfterFreeError iff the address lies
within no live record's inclusive range [record.block, record.block + size],
the record size being the live block's (header-stored) requested size. -/
theorem check_use_error_iff {st : St} (h : WF st) (hdbg : st.dbg = true)
    (addr : Nat) :
    ref.check_use addr st = .error .UseAfterFreeError ↔
      ¬ ∃ al ∈ st.allocs, al.1 + headerWidth ≤ addr ∧
        addr ≤ al.1 + headerWidth + al.2 := by
  unfold ref.check_use
  rw [if_pos hdbg]
  by_cases hany : st.registry.any (fun r =>
      decide (r.block ≤ addr) &&
      decide (addr ≤ r.block +
        leVal (readBytes st.mem (r.block - headerWidth) headerWidth))) = true
  · rw [if_pos hany]
    constructor
    · intro hcontra
      exact absurd hcontra (by simp)
    · intro hnot
      exfalso
      apply hnot
      obtain ⟨r, hrmem, hr⟩ := List.any_eq_true.mp hany
      rw [h.regSync hdbg] at hrmem
      obtain ⟨al, halmem, rfl⟩ := List.mem_map.mp hrmem
      simp only [Bool.and_eq_true, decide_eq_true_eq, Nat.add_sub_cancel] at hr
      rw [h.headers al halmem] at hr
      exact ⟨al, halmem, hr⟩
  · rw [if_neg hany]
    constructor
    · intro _
      rintro ⟨al, halmem, h1, h2⟩
      apply hany
      apply List.any_eq_true.mpr
      rw [h.regSync hdbg]
      refine ⟨⟨al.1 + headerWidth, 0⟩, List.mem_map_of_mem _ halmem, ?_⟩
      simp only [Bool.and_eq_true, decide_eq_true_eq, Nat.add_sub_cancel]
      rw [h.headers al halmem]
      exact ⟨h1, h2⟩
    · intro _
      rfl

/-- Writing only inside a live payload never touches a header word, so it
preserves well-formedness. -/
theorem wf_write {st : St} (h : WF st) {a w : Nat}
    (hin : ∃ al ∈ st.allocs,
      al.1 + headerWidth ≤ a ∧ a + w ≤ al.1 + headerWidth + al.2)
    (bs : List Nat) (hbs : bs.length = w) :
    WF { st with mem := writeBytes st.mem a bs } := by
  obtain ⟨al0, hmem0, hlo, hhi⟩ := hin
  refine ⟨h.bounded, h.sizeFits, h.disj, ?_, h.regSync⟩
  intro al hal
  have hdis : al.1 + headerWidth ≤ a ∨ a + w ≤ al.1 := by
    by_cases heq : al = al0
    · subst heq
      left
      exact hlo
    · have hdb : Disj al al0 := h.disj.forall disj_symmetric hal hmem0 heq
      cases hdb with
      | inl h1 => left; unfold Disj at *; omega
      | inr h2 => right; unfold Disj at *; omega
  cases hdis with
  | inl hle =>
    show leVal (readBytes (writeBytes st.mem a bs) al.1 headerWidth) = al.2
    rw [readBytes_writeBytes_left _ _ _ _ _ (by omega)]
    exact h.headers al hal
  | inr hge =>
    show leVal (readBytes (writeBytes st.mem a bs) al.1 headerWidth) = al.2
    rw [readBytes_writeBytes_right _ _ _ _ _ (by omega)]
    exact h.headers al hal

/-! ### Operation traces -/

/-- Every single obligation-respecting step preserves well-formedness. -/
theorem wf_step {st st' : St} {op : Op} (h : WF st) (hok : stepOk st op)
    (hs : step st op = .ok st') : WF st' := by
  cases op with
  | alloc size =>
    simp only [step, Except.ok.injEq] at hs
    subst hs
    exact wf_init h size hok
  | seqalloc e c =>
    simp only [step, seq.init, Except.ok.injEq] at hs
    subst hs
    exact wf_init h (c * e) hok
  | drop b =>
    exact wf_drop h hs
  | refput a w v =>
    simp only [step] at hs
    unfold ref.put at hs
    cases hcu : ref.check_use a st with
    | error e => rw [hcu] at hs; exact absurd hs (by simp)
    | ok u =>
      rw [hcu] at hs
      simp only [Except.ok.injEq] at hs
      subst hs
      exact wf_write h hok _ (leBytes_length _ _)
  | seqput b e i v =>
    simp only [step] at hs
    unfold seq.indexSet at hs
    cases hnth : seq.nth b e i st with
    | error e2 => rw [hnth] at hs; exact absurd hs (by simp)
    | ok a =>
      rw [hnth] at hs
      simp only [Except.ok.injEq] at hs
      subst hs
      obtain ⟨he, hi, al0, hmem0, hpay⟩ := hok
      have ha : a = b + i * e := by
        unfold seq.nth at hnth
        split at hnth
        · exact absurd hnth (by simp)
        · simp only [Except.ok.injEq] at hnth
          exact hnth.symm
      subst ha
      apply wf_write h ?_ _ (leBytes_length _ _)
      refine ⟨al0, hmem0, by omega, ?_⟩
      have hsize : block.size b st = al0.2 := by
        unfold block.size
        rw [← hpay, Nat.add_sub_cancel]
        exact h.headers al0 hmem0
      have hcap : seq.capacity b e st = al0.2 / e := by
        unfold seq.capacity
        rw [hsize]
      rw [hcap] at hi
      have h1 : (i + 1) * e ≤ (al0.2 / e) * e :=
        Nat.mul_le_mul_right e (Nat.succ_le_of_lt hi)
      have h2 : (al0.2 / e) * e ≤ al0.2 := Nat.div_mul_le_self _ _
      have h3 : i * e + e = (i + 1) * e := by ring
      omega

/-- Well-formedness is preserved along any successful run. -/
theorem wf_run {st st' : St} {ops : List Op} (hr : RunOk st ops st') :
    WF st → WF st' := by
  induction hr with
  | nil => exact id
  | cons hok hs _ ih =>
    intro h
    exact ih (wf_step h hok hs)

/-- Frame facts of a successful step: the build flag never changes, the
bump pointer never decreases, and every live allocation is either an old
one or freshly placed at or above the old bump pointer. -/
theorem step_frame {st st' : St} {op : Op} (hs : step st op = .ok st') :
    st'.dbg = st.dbg ∧ st.next ≤ st'.next ∧
    ∀ al ∈ st'.allocs, al ∈ st.allocs ∨ st.next ≤ al.1 := by
  cases op with
  | alloc size =>
    simp only [step, Except.ok.injEq] at hs
    subst hs
    refine ⟨rfl, by dsimp only [block.init]; omega, ?_⟩
    intro al hal
    dsimp only [block.init] at hal
    rcases List.mem_append.mp hal with hmem | hmem
    · exact Or.inl hmem
    · simp only [List.mem_singleton] at hmem
      subst hmem
      exact Or.inr (Nat.le_refl _)
  | seqalloc e c =>
    simp only [step, seq.init, Except.ok.injEq] at hs
    subst hs
    refine ⟨rfl, by dsimp only [block.init]; omega, ?_⟩
    intro al hal
    dsimp only [block.init] at hal
    rcases List.mem_append.mp hal with hmem | hmem
    · exact Or.inl hmem
    · simp only [List.mem_singleton] at hmem
      subst hmem
      exact Or.inr (Nat.le_refl _)
  | drop b =>
    have hall : ∀ al ∈ allocsRemove b st.allocs, al ∈ st.allocs := by
      cases hfind : findAt (fun al => al.1 + headerWidth == b) st.allocs with
      | none =>
        unfold allocsRemove
        rw [hfind]
        exact fun al hal => hal
      | some i => exact allocsRemove_subset hfind
    simp only [step] at hs
    unfold block.drop at hs
    by_cases hdbg : st.dbg = true
    · rw [if_pos hdbg] at hs
      cases hchk : block.check_drop b st.registry with
      | error e => rw [hchk] at hs; exact absurd hs (by simp)
      | ok reg =>
        rw [hchk] at hs
        simp only [Except.ok.injEq] at hs
        subst hs
        exact ⟨rfl, Nat.le_refl _, fun al hal => Or.inl (hall al hal)⟩
    · rw [if_neg hdbg] at hs
      simp only [Except.ok.injEq] at hs
      subst hs
      exact ⟨rfl, Nat.le_refl _, fun al hal => Or.inl (hall al hal)⟩
  | refput a w v =>
    simp only [step] at hs
    unfold ref.put at hs
    cases hcu : ref.check_use a st with
    | error e => rw [hcu] at hs; exact absurd hs (by simp)
    | ok u =>
      rw [hcu] at hs
      simp only [Except.ok.injEq] at hs
      subst hs
      exact ⟨rfl, Nat.le_refl _, fun al hal => Or.inl hal⟩
  | seqput b e i v =>
    simp only [step] at hs
    unfold seq.indexSet at hs
    cases hnth : seq.nth b e i st with
    | error e2 => rw [hnth] at hs; exact absurd hs (by simp)
    | ok a =>
      rw [hnth] at hs
      simp only [Except.ok.injEq] at hs
      subst hs
      exact ⟨rfl, Nat.le_refl _, fun al hal => Or.inl hal⟩

theorem run_dbg {st st' : St} {ops : List Op} (hr : RunOk st ops st') :
    st'.dbg = st.dbg := by
  induction hr with
  | nil => rfl
  | cons hok hs _ ih => rw [ih, (step_frame hs).1]

theorem dead_step {st st' : St} {op : Op} (hs : step st op = .ok st')
    {addr : Nat} (hd : Dead addr st) : Dead addr st' := by
  obtain ⟨hdbg, hnext, hal⟩ := step_frame hs
  obtain ⟨hlt, hnone⟩ := hd
  refine ⟨by omega, ?_⟩
  intro al hmem
  cases hal al hmem with
  | inl h1 => exact hnone al h1
  | inr h2 =>
    rintro ⟨hc1, hc2⟩
    omega

theorem dead_run {st st' : St} {ops : List Op} (hr : RunOk st ops st')
    {addr : Nat} (hd : Dead addr st) : Dead addr st' := by
  induction hr with
  | nil => exact hd
  | cons hok hs _ ih => exact ih (dead_step hs hd)

/-- Setting the position just past a list to anything leaves the prefix. -/
theorem set_length_append_singleton {α : Type} (A : List α) (y z : α) :
    (A ++ [y]).set A.length z = A ++ [z] := by
  induction A with
  | nil => rfl
  | cons x xs ih => simp [List.set, ih]

/-- Dropping the just-allocated block removes exactly its fresh record and
allocation, returning the allocation list to what it was. -/
theorem init_then_drop {st : St} (h : WF st) (hdbg : st.dbg = true)
    {size : Nat} (hsz : size < 2 ^ (8 * headerWidth)) :
    block.drop (st.next + headerWidth) (block.init size st).2 =
      .ok { st with
        mem := writeBytes st.mem st.next (leBytes headerWidth size),
        registry := st.allocs.map (fun al => ⟨al.1 + headerWidth, 0⟩),
        allocs := st.allocs,
        next := st.next + headerWidth + size } := by
  have hwf1 : WF (block.init size st).2 := wf_init h size hsz
  have hdbg1 : (block.init size st).2.dbg = true := hdbg
  have hnone : findAt (fun al => al.1 + headerWidth == st.next + headerWidth)
      st.allocs = none := by
    apply findAt_eq_none_iff.mpr
    intro al hal
    have hb := h.bounded al hal
    have hw8 : headerWidth = 8 := rfl
    exact beq_eq_false_iff_ne.mpr (by omega)
  have hfind : findAt (fun al => al.1 + headerWidth == st.next + headerWidth)
      (block.init size st).2.allocs = some st.allocs.length := by
    show findAt _ (st.allocs ++ [(st.next, size)]) = _
    exact findAt_append_singleton_of_none hnone _ (by simp)
  have hlast : (st.allocs ++ [(st.next, size)]).getLastD (0, 0) = (st.next, size) := by
    rw [List.getLastD_eq_getLast?, List.getLast?_concat]
    rfl
  have hrem : allocsRemove (st.next + headerWidth) (block.init size st).2.allocs =
      st.allocs := by
    unfold allocsRemove
    rw [hfind]
    show ((st.allocs ++ [(st.next, size)]).set st.allocs.length
      ((st.allocs ++ [(st.next, size)]).getLastD (0, 0))).dropLast = _
    rw [hlast, set_length_append_singleton, List.dropLast_concat]
  rw [block_drop_ok_debug hwf1 hdbg1 hfind, hrem]
  rfl

/-! ### Claim C1 -/

/-- C1 counterexample: in a release build (debug flag off) the claim's
"OutOfBoundsError in both build modes" fails — with capacity() = 1, nth(1)
does not fail, it returns the Ref at address 12, because ASSERTM expands
to `;` when EASYSPOT_DEBUG is not defined. -/
theorem c1_counterexample :
    seq.capacity (seq.init 4 1 (st0 false)).1 4 (seq.init 4 1 (st0 false)).2 = 1 ∧
    seq.nth (seq.init 4 1 (st0 false)).1 4 1 (seq.init 4 1 (st0 false)).2 =
      .ok 12 := by
  constructor
  · decide
  · rfl

/-- C1 amended: the nth/indexing bounds check is gated by the debug flag.
In debug builds nth(idx) fails with OutOfBoundsError exactly when
idx ≥ capacity() and otherwise succeeds with the Ref at
payload + idx * sizeof(T); in release builds ASSERTM compiles away, so nth
never fails and always returns that Ref. -/
theorem c1_nth_bounds (st : St) (b e idx : Nat) :
    (st.dbg = true →
      ((seq.nth b e idx st = .error .OutOfBoundsError ↔
        seq.capacity b e st ≤ idx) ∧
      (idx < seq.capacity b e st →
        seq.nth b e idx st = .ok (b + idx * e)))) ∧
    (st.dbg = false → seq.nth b e idx st = .ok (b + idx * e)) := by
  by_cases hc : idx < seq.capacity b e st
  · have hok : seq.nth b e idx st = .ok (b + idx * e) := by
      unfold seq.nth
      rw [if_neg (by rintro ⟨_, hn⟩; exact hn hc)]
    rw [hok]
    exact ⟨fun _ => ⟨⟨fun hcontr => absurd hcontr (by simp),
      fun hle => absurd hle (by omega)⟩, fun _ => rfl⟩, fun _ => rfl⟩
  · constructor
    · intro hdbg
      have herr : seq.nth b e idx st = .error .OutOfBoundsError := by
        unfold seq.nth
        rw [if_pos ⟨hdbg, hc⟩]
      rw [herr]
      exact ⟨⟨fun _ => by omega, fun _ => rfl⟩, fun hlt => absurd hlt hc⟩
    · intro hrel
      unfold seq.nth
      rw [if_neg (by rintro ⟨hd, _⟩; rw [hrel] at hd; exact absurd hd (by simp))]

/-- Witness for the amended C1 at a concrete input: one-element debug seq,
nth(1) panics with OutOfBoundsError. -/
theorem c1_witness :
    seq.nth 8 4 1 (seq.init 4 1 (st0 true)).2 = .error .OutOfBoundsError := by
  have h := ((c1_nth_bounds (seq.init 4 1 (st0 true)).2 8 4 1).1 rfl).1
  exact h.mpr (by decide)

/-! ### Claim C2 -/

/-- C2 counterexample: debug build, one-element seq at payload 8, value 5
written at index 0, block dropped.  operator[] still returns 5 — it does
not run the Ref's use-after-free check — while nth(0) followed by the
checked dereference panics with UseAfterFreeError.  So indexing is NOT
equivalent to nth-then-dereference on a dropped Seq. -/
theorem c2_counterexample :
    ((seq.indexSet 8 4 0 5 (seq.init 4 1 (st0 true)).2).bind (fun st1 =>
      (seq.drop 8 st1).bind (fun st2 => seq.index 8 4 0 st2))) = .ok 5 ∧
    ((seq.indexSet 8 4 0 5 (seq.init 4 1 (st0 true)).2).bind (fun st1 =>
      (seq.drop 8 st1).bind (fun st2 => ref.get 8 4 st2))) =
      .error .UseAfterFreeError := by
  constructor
  · rfl
  · rfl

/-- C2 amended: operator[] is nth followed by a raw dereference of the
Ref's pointer (`*nth(idx).bptr`): it propagates nth's (debug-gated) bounds
error, but when nth succeeds it always reads memory directly — it agrees
with the checked dereference exactly when check_use passes, and when
check_use panics with UseAfterFreeError, operator[] still returns the raw
bytes instead of failing. -/
theorem c2_index_raw (st : St) (b e idx : Nat) :
    (∀ er : Err, seq.nth b e idx st = .error er →
      seq.index b e idx st = .error er) ∧
    (∀ a : Nat, seq.nth b e idx st = .ok a →
      seq.index b e idx st = .ok (leVal (readBytes st.mem a e)) ∧
      (ref.check_use a st = .error .UseAfterFreeError →
        ref.get a e st = .error .UseAfterFreeError) ∧
      (ref.check_use a st = .ok () →
        ref.get a e st = seq.index b e idx st)) := by
  constructor
  · intro er herr
    unfold seq.index
    rw [herr]
  · intro a hok
    have hidx : seq.index b e idx st = .ok (leVal (readBytes st.mem a e)) := by
      unfold seq.index
      rw [hok]
    refine ⟨hidx, ?_, ?_⟩
    · intro hcu
      unfold ref.get
      rw [hcu]
    · intro hcu
      unfold ref.get
      rw [hcu, hidx]

/-- Witness for the amended C2 at a concrete input. -/
theorem c2_witness :
    seq.index 8 4 0 (seq.init 4 1 (st0 true)).2 = .ok 0 := by
  have h := ((c2_index_raw (seq.init 4 1 (st0 true)).2 8 4 0).2 8 rfl).1
  rw [h]
  rfl

/-! ### Claim C9 -/

/-- C9: there is no implicit deallocation: ~block and ~seq have empty
bodies ("not allowed to deallocate internal block"), so letting a handle
go out of scope releases no memory and leaves the Live Registry, the live
allocations, and the heap untouched. -/
theorem c9_no_implicit_dealloc (st : St) :
    block.dtor st = st ∧ seq.dtor st = st ∧
    (block.dtor st).registry = st.registry ∧
    (block.dtor st).allocs = st.allocs ∧
    (block.dtor st).mem = st.mem ∧
    (seq.dtor st).registry = st.registry ∧
    (seq.dtor st).allocs = st.allocs ∧
    (seq.dtor st).mem = st.mem :=
  ⟨rfl, rfl, rfl, rfl, rfl, rfl, rfl, rfl⟩

/-! ### Claim C10 -/

/-- C10: the size > 0 / capacity > 0 preconditions are not enforced at the
interface: block(0) and seq<T>(0) construct without any error path,
size() = 0 and capacity() = 0, and in debug builds a Live Registry record
is still pushed for the zero-size allocation. -/
theorem c10_zero_alloc (st : St) (e : Nat) :
    block.size (block.init 0 st).1 (block.init 0 st).2 = 0 ∧
    seq.capacity (seq.init e 0 st).1 e (seq.init e 0 st).2 = 0 ∧
    (st.dbg = true →
      (block.init 0 st).2.registry =
        st.registry ++ [⟨st.next + headerWidth, 0⟩]) ∧
    (st.dbg = true →
      (seq.init e 0 st).2.registry =
        st.registry ++ [⟨st.next + headerWidth, 0⟩]) := by
  have h0 : 0 * e < 2 ^ (8 * headerWidth) := by
    rw [Nat.zero_mul]
    exact pow_pos (by decide) _
  refine ⟨block_size_init 0 st (by decide), ?_, ?_, ?_⟩
  · unfold seq.capacity seq.init
    rw [block_size_init _ _ h0, Nat.zero_mul, Nat.zero_div]
  · intro hdbg
    show (if st.dbg = true then st.registry ++ [⟨st.next + headerWidth, 0⟩]
      else st.registry) = _
    rw [if_pos hdbg]
  · intro hdbg
    show (if st.dbg = true then st.registry ++ [⟨st.next + headerWidth, 0⟩]
      else st.registry) = _
    rw [if_pos hdbg]

/-- Witness for C10 at a concrete input. -/
theorem c10_witness :
    block.size (block.init 0 (st0 true)).1 (block.init 0 (st0 true)).2 = 0 ∧
    (block.init 0 (st0 true)).2.registry = [⟨headerWidth, 0⟩] := by
  have h := c10_zero_alloc (st0 true) 4
  exact ⟨h.1, by rw [h.2.2.1 rfl]; rfl⟩

/-! ### Claim C6 -/

/-- C6: Seq<T>::allocate(capacity) constructs exactly one Block of
capacity * sizeof(T) bytes (the constructor delegates to
block(capacity * sizeof(T)), recording one allocation of that many bytes),
and the round trip capacity() = Block.size() / sizeof(T) = capacity is
exact. -/
theorem c6_capacity_roundtrip (st : St) (e c : Nat) (he : 0 < e) (hc : 0 < c)
    (hsz : c * e < 2 ^ (8 * headerWidth)) :
    seq.init e c st = block.init (c * e) st ∧
    block.size (seq.init e c st).1 (seq.init e c st).2 = c * e ∧
    (seq.init e c st).2.allocs = st.allocs ++ [(st.next, c * e)] ∧
    seq.capacity (seq.init e c st).1 e (seq.init e c st).2 = c := by
  refine ⟨rfl, block_size_init _ _ hsz, rfl, ?_⟩
  unfold seq.capacity seq.init
  rw [block_size_init _ _ hsz]
  exact Nat.mul_div_left c he

/-- Witness for C6 at a concrete input: Seq<int32>::allocate(10), giving a
40-byte block and capacity 10 (concrete scenario B's shape). -/
theorem c6_witness :
    seq.capacity (seq.init 4 10 (st0 true)).1 4 (seq.init 4 10 (st0 true)).2 =
      10 := by
  exact (c6_capacity_roundtrip (st0 true) 4 10 (by decide) (by decide)
    (by decide)).2.2.2

/-! ### Claim C8 -/

theorem pow256_general (n : Nat) : (256 : Nat) ^ n = 2 ^ (8 * n) := by
  rw [show (256 : Nat) = 2 ^ 8 from rfl, ← pow_mul]

/-- Collapsing operator[] when nth succeeded. -/
theorem seq_index_of_nth_ok {st : St} {b e k a : Nat}
    (h : seq.nth b e k st = .ok a) :
    seq.index b e k st = .ok (leVal (readBytes st.mem a e)) := by
  unfold seq.index
  rw [h]

/-- C8: nth(idx) yields the Ref at payload + idx * sizeof(T); for distinct
in-bounds indices i ≠ j the element byte ranges are disjoint, so a write
through index j leaves a read through index i unchanged, and reading an
index back yields exactly the last value written to it. -/
theorem c8_index_independence (st : St) (b e i j : Nat) (he : 0 < e)
    (hb : headerWidth ≤ b)
    (hi : i < seq.capacity b e st) (hj : j < seq.capacity b e st)
    (hne : i ≠ j) (v : Nat) :
    seq.nth b e i st = .ok (b + i * e) ∧
    (∀ st', seq.indexSet b e j v st = .ok st' →
      seq.index b e i st' = seq.index b e i st) ∧
    (∀ st', seq.indexSet b e i v st = .ok st' → v < 2 ^ (8 * e) →
      seq.index b e i st' = .ok v) := by
  have hnth : ∀ k, k < seq.capacity b e st →
      seq.nth b e k st = .ok (b + k * e) := by
    intro k hk
    unfold seq.nth
    rw [if_neg (by rintro ⟨_, hn⟩; exact hn hk)]
  have hcap' : ∀ a bs, b ≤ a →
      seq.capacity b e { st with mem := writeBytes st.mem a bs } =
        seq.capacity b e st := by
    intro a bs ha
    unfold seq.capacity block.size
    rw [readBytes_writeBytes_left _ _ _ _ _ (by omega)]
  refine ⟨hnth i hi, ?_, ?_⟩
  · intro st' hset
    unfold seq.indexSet at hset
    rw [hnth j hj] at hset
    simp only [Except.ok.injEq] at hset
    subst hset
    have hcap : seq.capacity b e
        { st with mem := writeBytes st.mem (b + j * e) (leBytes e v) } =
        seq.capacity b e st := hcap' _ _ (by omega)
    have hnth' : seq.nth b e i
        { st with mem := writeBytes st.mem (b + j * e) (leBytes e v) } =
        .ok (b + i * e) := by
      unfold seq.nth
      rw [if_neg (by rintro ⟨_, hn⟩; rw [hcap] at hn; exact hn hi)]
    have hdisj : readBytes (writeBytes st.mem (b + j * e) (leBytes e v))
        (b + i * e) e = readBytes st.mem (b + i * e) e := by
      rcases Nat.lt_or_ge i j with hij | hij
      · apply readBytes_writeBytes_left
        have : (i + 1) * e ≤ j * e := Nat.mul_le_mul_right e hij
        have h3 : i * e + e = (i + 1) * e := by ring
        omega
      · have hij' : j < i := by omega
        apply readBytes_writeBytes_right
        rw [leBytes_length]
        have : (j + 1) * e ≤ i * e := Nat.mul_le_mul_right e hij'
        have h3 : j * e + e = (j + 1) * e := by ring
        omega
    rw [seq_index_of_nth_ok hnth', seq_index_of_nth_ok (hnth i hi)]
    show Except.ok (leVal (readBytes (writeBytes st.mem (b + j * e)
      (leBytes e v)) (b + i * e) e)) =
      Except.ok (leVal (readBytes st.mem (b + i * e) e))
    rw [hdisj]
  · intro st' hset hv
    unfold seq.indexSet at hset
    rw [hnth i hi] at hset
    simp only [Except.ok.injEq] at hset
    subst hset
    have hcap : seq.capacity b e
        { st with mem := writeBytes st.mem (b + i * e) (leBytes e v) } =
        seq.capacity b e st := hcap' _ _ (by omega)
    have hnth' : seq.nth b e i
        { st with mem := writeBytes st.mem (b + i * e) (leBytes e v) } =
        .ok (b + i * e) := by
      unfold seq.nth
      rw [if_neg (by rintro ⟨_, hn⟩; rw [hcap] at hn; exact hn hi)]
    rw [seq_index_of_nth_ok hnth']
    show Except.ok (leVal (readBytes (writeBytes st.mem (b + i * e)
      (leBytes e v)) (b + i * e) e)) = _
    rw [readBytes_writeBytes_of_length _ _ _ _ (leBytes_length _ _),
      leVal_leBytes_of_lt _ _ (by rw [pow256_general]; exact hv)]

/-- Witness for C8 at a concrete input: two-element seq, indices 0 and 1. -/
theorem c8_witness :
    seq.nth 8 4 0 (seq.init 4 2 (st0 false)).2 = .ok 8 := by
  exact (c8_index_independence (seq.init 4 2 (st0 false)).2 8 4 0 1 (by decide)
    (by decide) (by decide) (by decide) (by decide) 7).1

/-! ### Claim C5 -/

/-- C5: allocate(size).size() = size, and along any run of
obligation-respecting operations (writes through Refs, Seq indexing,
drops, further allocations — registry updates never touch memory), the
header word at payload - header_width of every still-live block holds the
originally requested size, so size() returns that value at every point of
the block's lifetime. -/
theorem c5_header_immutable :
    (∀ (st : St) (size : Nat), 0 < size → size < 2 ^ (8 * headerWidth) →
      block.size (block.init size st).1 (block.init size st).2 = size) ∧
    (∀ (st : St) (ops : List Op) (st' : St), WF st → RunOk st ops st' →
      ∀ base size, (base, size) ∈ st'.allocs →
        leVal (readBytes st'.mem base headerWidth) = size ∧
        block.size (base + headerWidth) st' = size) := by
  constructor
  · intro st size _ hsz
    exact block_size_init size st hsz
  · intro st ops st' hwf hrun base size hmem
    have hwf' : WF st' := wf_run hrun hwf
    have hh := hwf'.headers (base, size) hmem
    refine ⟨hh, ?_⟩
    unfold block.size
    rw [Nat.add_sub_cancel]
    exact hh

/-- Witness for C5: a fresh 16-byte debug allocation reports size 16, both
directly and after the (singleton) run reaching that state. -/
theorem c5_witness :
    block.size (block.init 16 (st0 true)).1 (block.init 16 (st0 true)).2 =
      16 ∧
    block.size (0 + headerWidth) (block.init 16 (st0 true)).2 = 16 := by
  constructor
  · exact c5_header_immutable.1 (st0 true) 16 (by decide) (by decide)
  · have hrun : RunOk (st0 true) [Op.alloc 16] (block.init 16 (st0 true)).2 :=
      RunOk.cons (by unfold stepOk; decide) rfl (RunOk.nil _)
    exact (c5_header_immutable.2 (st0 true) [Op.alloc 16] _ (wf_st0 true) hrun
      0 16 (by decide)).2

/-! ### Claim C7 -/

/-- C7: in debug builds the Live Registry grows by exactly one record per
allocation and shrinks by exactly one per successful drop; its length is
never negative; and no live address is recorded twice — the registry holds
exactly one record per live block (it mirrors the live allocations). -/
theorem c7_registry_count (st : St) (h : WF st) (hdbg : st.dbg = true) :
    (∀ size, ((block.init size st).2.registry).length =
      st.registry.length + 1) ∧
    (∀ p st', block.drop p st = .ok st' →
      st'.registry.length + 1 = st.registry.length) ∧
    0 ≤ st.registry.length ∧
    (st.registry.map (fun r => r.block)).Nodup ∧
    st.registry = st.allocs.map (fun al => ⟨al.1 + headerWidth, 0⟩) := by
  refine ⟨?_, ?_, Nat.zero_le _, ?_, h.regSync hdbg⟩
  · intro size
    show (if st.dbg = true then st.registry ++ [⟨st.next + headerWidth, 0⟩]
      else st.registry).length = _
    rw [if_pos hdbg]
    simp
  · intro p st' hdrop
    cases hfind : findAt (fun al => al.1 + headerWidth == p) st.allocs with
    | none =>
      rw [block_drop_error h hdbg hfind] at hdrop
      exact absurd hdrop (by simp)
    | some i =>
      rw [block_drop_ok_debug h hdbg hfind] at hdrop
      simp only [Except.ok.injEq] at hdrop
      subst hdrop
      have hperm := allocsRemove_perm hfind
      have hlen := hperm.length_eq
      simp only [List.length_cons] at hlen
      show ((allocsRemove p st.allocs).map
        (fun al => (⟨al.1 + headerWidth, 0⟩ : RegistryRecord))).length + 1 =
        st.registry.length
      rw [List.length_map, h.regSync hdbg, List.length_map]
      omega
  · rw [h.regSync hdbg, List.map_map]
    have hpw : st.allocs.Pairwise
        (fun a b : Nat × Nat => a.1 + headerWidth ≠ b.1 + headerWidth) := by
      apply h.disj.imp
      intro a b hab
      have hw8 : headerWidth = 8 := rfl
      unfold Disj at hab
      omega
    unfold List.Nodup
    rw [List.pairwise_map]
    exact hpw

/-- Witness for C7: a fresh debug allocation takes the registry from zero
records to one. -/
theorem c7_witness :
    ((block.init 5 (st0 true)).2.registry).length =
      (st0 true).registry.length + 1 := by
  exact (c7_registry_count (st0 true) (wf_st0 true) rfl).1 5

/-! ### Claim C3 -/

/-- ref::operator* fails with UseAfterFreeError exactly when check_use
does (the only panic check_use can raise). -/
theorem ref_get_error_iff {st : St} (addr width : Nat) :
    ref.get addr width st = .error .UseAfterFreeError ↔
      ref.check_use addr st = .error .UseAfterFreeError := by
  unfold ref.get
  cases check_use_cases addr st with
  | inl hok => rw [hok]; simp
  | inr herr => rw [herr]; simp

theorem findAt_isSome_of_mem {α : Type} {p : α → Bool} {l : List α} {x : α}
    (hx : x ∈ l) (hp : p x = true) : ∃ i, findAt p l = some i := by
  induction l with
  | nil => simp at hx
  | cons y ys ih =>
    by_cases hpy : p y
    · exact ⟨0, by unfold findAt; rw [if_pos hpy]⟩
    · rcases List.mem_cons.mp hx with rfl | hmem
      · exact absurd hp hpy
      · obtain ⟨i, hi⟩ := ih hmem
        refine ⟨i + 1, ?_⟩
        unfold findAt
        rw [if_neg hpy, hi]
        rfl

/-- C3: in a debug build a dereference runs check_use first — a linear
scan of the Live Registry — and panics with UseAfterFreeError iff the
Ref's address lies within no live record's inclusive range
[record.block, record.block + record.size]; and for every size > 0, after
allocate(size) then drop(), any later dereference of a Ref derived from
that allocation (an address inside [payload, payload + size]) fails with
UseAfterFreeError, no matter what obligation-respecting operations have
run in between. -/
theorem c3_use_after_free (st : St) (h : WF st) (hdbg : st.dbg = true) :
    (∀ addr width : Nat,
      ref.get addr width st = .error .UseAfterFreeError ↔
        ¬ ∃ al ∈ st.allocs, al.1 + headerWidth ≤ addr ∧
          addr ≤ al.1 + headerWidth + al.2) ∧
    (∀ size : Nat, 0 < size → size < 2 ^ (8 * headerWidth) →
      ∀ st₂, block.drop (block.init size st).1 (block.init size st).2 =
          .ok st₂ →
      ∀ (ops : List Op) (st₃ : St), RunOk st₂ ops st₃ →
      ∀ addr width : Nat, (block.init size st).1 ≤ addr →
        addr ≤ (block.init size st).1 + size →
        ref.get addr width st₃ = .error .UseAfterFreeError) := by
  constructor
  · intro addr width
    rw [ref_get_error_iff addr width]
    exact check_use_error_iff h hdbg addr
  · intro size hpos hsz st₂ hdrop ops st₃ hrun addr width hlo hhi
    have hp : (block.init size st).1 = st.next + headerWidth := rfl
    rw [hp] at hdrop hlo hhi
    rw [init_then_drop h hdbg hsz] at hdrop
    simp only [Except.ok.injEq] at hdrop
    subst hdrop
    have hw8 : headerWidth = 8 := rfl
    have hwfR : WF _ := wf_drop (wf_init h size hsz) (init_then_drop h hdbg hsz)
    have hwf3 : WF st₃ := wf_run hrun hwfR
    have hdbg3 : st₃.dbg = true := by
      rw [run_dbg hrun]
      exact hdbg
    have hdead : Dead addr { st with
        mem := writeBytes st.mem st.next (leBytes headerWidth size),
        registry := st.allocs.map (fun al => ⟨al.1 + headerWidth, 0⟩),
        allocs := st.allocs,
        next := st.next + headerWidth + size } := by
      refine ⟨by show addr < st.next + headerWidth + size + headerWidth; omega, ?_⟩
      intro al hal
      have hb := h.bounded al hal
      rintro ⟨hc1, hc2⟩
      omega
    have hdead3 : Dead addr st₃ := dead_run hrun hdead
    rw [ref_get_error_iff addr width, check_use_error_iff hwf3 hdbg3 addr]
    rintro ⟨al, hmem, hc1, hc2⟩
    exact (hdead3.2 al hmem) ⟨hc1, hc2⟩

/-- Witness for C3: allocate 4 bytes in a debug build, drop, then
dereference the payload Ref — UseAfterFreeError. -/
theorem c3_witness :
    ref.get 8 4 demoDropped = .error .UseAfterFreeError := by
  exact (c3_use_after_free (st0 true) (wf_st0 true) rfl).2 4 (by decide)
    (by decide) demoDropped rfl [] demoDropped (RunOk.nil _) 8 4 (by decide)
    (by decide)

/-! ### Claim C4 -/

/-- C4: in a debug build, drop() on a Block whose payload address is
registered succeeds, removing exactly that one record (swap-with-last, so
order-independent: the old registry is a permutation of the record put
back on the new one) and releasing exactly that buffer (the live
allocation (base, size) with base + header_width = payload, header
included, leaves the live set); drop() on an unregistered address — in
particular the second of two drops of the same allocation — panics with
DoubleDropError. -/
theorem c4_drop (st : St) (h : WF st) (hdbg : st.dbg = true) :
    (∀ p, (∃ r ∈ st.registry, r.block = p) →
      ∃ st', block.drop p st = .ok st' ∧
        List.Perm st.registry (⟨p, 0⟩ :: st'.registry) ∧
        ∃ base size, base + headerWidth = p ∧ (base, size) ∈ st.allocs ∧
          List.Perm st.allocs ((base, size) :: st'.allocs)) ∧
    (∀ p, (∀ r ∈ st.registry, r.block ≠ p) →
      block.drop p st = .error .DoubleDropError) ∧
    (∀ size, 0 < size → size < 2 ^ (8 * headerWidth) →
      ∀ st₂, block.drop (block.init size st).1 (block.init size st).2 =
        .ok st₂ →
      block.drop (block.init size st).1 st₂ = .error .DoubleDropError) := by
  refine ⟨?_, ?_, ?_⟩
  · rintro p ⟨r, hrmem, hrblock⟩
    rw [h.regSync hdbg] at hrmem
    obtain ⟨al, halmem, rfl⟩ := List.mem_map.mp hrmem
    have hp : al.1 + headerWidth = p := hrblock
    obtain ⟨i, hfind⟩ := @findAt_isSome_of_mem _
      (fun a => a.1 + headerWidth == p) _ _ halmem (beq_iff_eq.mpr hp)
    have hget : (st.allocs.get ⟨i, findAt_lt_length hfind⟩).1 + headerWidth =
        p := beq_iff_eq.mp (findAt_get hfind)
    refine ⟨_, block_drop_ok_debug h hdbg hfind, ?_, ?_⟩
    · have hperm := (allocsRemove_perm hfind).map
        (fun al => (⟨al.1 + headerWidth, 0⟩ : RegistryRecord))
      simp only [List.map_cons] at hperm
      have hfg : (⟨(st.allocs.get ⟨i, findAt_lt_length hfind⟩).1 +
          headerWidth, 0⟩ : RegistryRecord) = ⟨p, 0⟩ := by
        rw [hget]
      rw [hfg] at hperm
      rw [h.regSync hdbg]
      exact hperm
    · refine ⟨(st.allocs.get ⟨i, findAt_lt_length hfind⟩).1,
        (st.allocs.get ⟨i, findAt_lt_length hfind⟩).2, hget, ?_, ?_⟩
      · rw [Prod.mk.eta]
        exact st.allocs.get_mem _ _
      · rw [Prod.mk.eta]
        exact allocsRemove_perm hfind
  · intro p hnone
    apply block_drop_error h hdbg
    apply findAt_eq_none_iff.mpr
    intro al halmem
    have hr : al.1 + headerWidth ≠ p :=
      hnone ⟨al.1 + headerWidth, 0⟩
        (by rw [h.regSync hdbg]; exact List.mem_map_of_mem _ halmem)
    exact beq_eq_false_iff_ne.mpr hr
  · intro size hpos hsz st₂ hdrop
    have hp : (block.init size st).1 = st.next + headerWidth := rfl
    rw [hp] at hdrop ⊢
    rw [init_then_drop h hdbg hsz] at hdrop
    simp only [Except.ok.injEq] at hdrop
    subst hdrop
    have hwfR : WF _ := wf_drop (wf_init h size hsz) (init_then_drop h hdbg hsz)
    apply block_drop_error hwfR hdbg
    apply findAt_eq_none_iff.mpr
    intro al halmem
    have hb := h.bounded al halmem
    have hw8 : headerWidth = 8 := rfl
    exact beq_eq_false_iff_ne.mpr (by omega)

/-- Witness for C4: dropping the already-dropped 4-byte demo block panics
with DoubleDropError. -/
theorem c4_witness :
    block.drop 8 demoDropped = .error .DoubleDropError := by
  exact (c4_drop (st0 true) (wf_st0 true) rfl).2.2 4 (by decide) (by decide)
    demoDropped rfl

end EasySpot
